import Mathlib

/-!
Verification of the `reflex` repository's two scripts against its
natural-language specification.

The development shallowly embeds the Python sources:
  * `src/plugins/reflex/scripts/ingest.py` — text extraction, the
    paragraph chunker `chunk_text`, point construction for the vector
    store, and the per-file driver loop;
  * `src/plugins/reflex/scripts/langfuse-trace.py` — the trace
    forwarder (`parse_tool_data`, `send_trace`, `main`).

Strings are modelled as Lean `String` (lists of characters); Python's
whitespace class (for `str.strip`, `str.split` and the regex `\s`) is
modelled by the ASCII whitespace characters, which is exact for ASCII
input.  External effects (the MD5 hash, the JSON parser, the embedding
and vector-store clients, file extraction) are modelled as explicit
function parameters; Python exceptions are modelled with `Except`.
-/

/-- ASCII whitespace, the characters matched by Python's `\s` and
stripped by `str.strip()` on ASCII text. -/
def isWS (c : Char) : Bool :=
  c = ' ' || c = '\t' || c = '\n' || c = '\r' || c = '\x0b' || c = '\x0c'

/-- `str.strip()` on a character list: drop whitespace from both ends. -/
def stripChars (cs : List Char) : List Char :=
  ((cs.dropWhile isWS).reverse.dropWhile isWS).reverse

/-- Helper for `re.split`: the suffix of `w` after its last newline,
or `none` when `w` contains no newline. -/
def splitLastNL : List Char → Option (List Char)
  | [] => none
  | c :: cs =>
    match splitLastNL cs with
    | some t => some t
    | none => if c = '\n' then some cs else none

/-- One attempt of the regex engine to match `\s*\n` (the tail of
`\n\s*\n`) at the current position, greedily with backtracking: the
match succeeds exactly when the maximal whitespace run contains a
newline, and consumes through the last such newline.  Returns the
remaining input on success. -/
def tryMatch (rest : List Char) : Option (List Char) :=
  match splitLastNL (rest.takeWhile isWS) with
  | some t => some (t ++ rest.dropWhile isWS)
  | none => none

/-- Prepend a character to the first piece of the split result. -/
def consHead (c : Char) : List (List Char) → List (List Char)
  | [] => [[c]]
  | p :: ps => (c :: p) :: ps

/-- `re.split(r'\n\s*\n', text)` as a fuel-bounded scan (fuel bounds the
number of characters examined; `reSplit` supplies enough fuel). -/
def reSplitF : Nat → List Char → List (List Char)
  | 0, cs => [cs]
  | fuel + 1, cs =>
    match cs with
    | [] => [[]]
    | c :: rest =>
      if c = '\n' then
        match tryMatch rest with
        | some rest2 => [] :: reSplitF fuel rest2
        | none => consHead c (reSplitF fuel rest)
      else consHead c (reSplitF fuel rest)

/-- `re.split(r'\n\s*\n', text)`: split on blank-line boundaries. -/
def reSplit (cs : List Char) : List (List Char) :=
  reSplitF (cs.length + 1) cs

/-- ingest.py line 303:
`paragraphs = [p.strip() for p in re.split(r'\n\s*\n', text) if p.strip()]`. -/
def splitParagraphs (text : String) : List String :=
  ((reSplit text.data).map (fun p => String.mk (stripChars p))).filter
    (fun p => p != "")

/-- `str.split()` with no separator: whitespace-delimited words, empties
discarded.  The accumulator holds the current word reversed. -/
def splitWords : List Char → List Char → List (List Char)
  | [], acc => if acc = [] then [] else [acc.reverse]
  | c :: cs, acc =>
    if isWS c then
      if acc = [] then splitWords cs [] else acc.reverse :: splitWords cs []
    else splitWords cs (c :: acc)

/-- `para.split()`. -/
def words (s : String) : List String :=
  (splitWords s.data []).map String.mk

/-- `len(para.split())`, the word count used throughout `chunk_text`. -/
def wordCount (s : String) : Nat :=
  (words s).length

/-- A chunk dict `{"content": ..., "word_count": ...}` (ingest.py
lines 314–317). -/
structure Chunk where
  content : String
  word_count : Nat
deriving Repr, DecidableEq

/-- One iteration of the paragraph loop of `chunk_text`
(ingest.py lines 309–328): possibly close the current chunk, apply the
overlap reset policy, then append the paragraph. -/
def chunkStep (chunk_size overlap : Nat)
    (st : List Chunk × List String × Nat) (para : String) :
    List Chunk × List String × Nat :=
  let chunks := st.1
  let current := st.2.1
  let current_words := st.2.2
  let para_words := wordCount para
  let (chunks, current, current_words) :=
    if current_words + para_words > chunk_size ∧ current ≠ [] then
      let chunks := chunks ++
        [{ content := String.intercalate "\n\n" current,
           word_count := current_words }]
      if current ≠ [] ∧ wordCount current.getLast! ≤ overlap then
        (chunks, [current.getLast!], wordCount current.getLast!)
      else
        (chunks, ([] : List String), 0)
    else
      (chunks, current, current_words)
  (chunks, current ++ [para], current_words + para_words)

/-- ingest.py `chunk_text` (lines 286–337). -/
def chunk_text (text : String) (chunk_size : Nat := 400)
    (overlap : Nat := 50) : List Chunk :=
  let paragraphs := splitParagraphs text
  let st := paragraphs.foldl (chunkStep chunk_size overlap) ([], [], 0)
  if st.2.1 ≠ [] then
    st.1 ++ [{ content := String.intercalate "\n\n" st.2.1,
               word_count := st.2.2 }]
  else
    st.1

/-- Sum of the word counts of a list of paragraphs; the loop variable
`current_words` of `chunk_text` always equals `wsum current`. -/
def wsum (ps : List String) : Nat :=
  (ps.map wordCount).sum

/-- The chunk dict built from a buffer of paragraphs: content is the
blank-line join, word count the sum of the paragraphs' word counts. -/
def mkChunk (ps : List String) : Chunk :=
  { content := String.intercalate "\n\n" ps, word_count := wsum ps }

/-- The loop of `chunk_text` at the level of paragraph lists: the same
step as `chunkStep`, but chunks are kept as their buffered paragraph
lists instead of joined contents, and the running word count is left
implicit (`wsum`). -/
def chunkStepP (chunk_size overlap : Nat)
    (st : List (List String) × List String) (para : String) :
    List (List String) × List String :=
  let done := st.1
  let current := st.2
  let (done, current) :=
    if wsum current + wordCount para > chunk_size ∧ current ≠ [] then
      (done ++ [current],
       if current ≠ [] ∧ wordCount current.getLast! ≤ overlap then
         [current.getLast!]
       else
         ([] : List String))
    else
      (done, current)
  (done, current ++ [para])

/-- Folding the paragraph-level step over a paragraph list. -/
def chunkFoldP (chunk_size overlap : Nat)
    (st : List (List String) × List String) (ps : List String) :
    List (List String) × List String :=
  ps.foldl (chunkStepP chunk_size overlap) st

/-- The chunks of `chunk_text`, as paragraph lists (final buffer
flushed when non-empty, mirroring lines 331–335). -/
def chunkParas (chunk_size overlap : Nat) (ps : List String) :
    List (List String) :=
  let st := chunkFoldP chunk_size overlap ([], []) ps
  if st.2 ≠ [] then st.1 ++ [st.2] else st.1

/-- Undo the overlap duplication: walking the chunk list, drop the
first paragraph of a chunk exactly when the previous chunk's last
paragraph was eligible for carry-forward (word count ≤ overlap). -/
def dechunkRest (overlap : Nat) : List String → List (List String) → List String
  | _, [] => []
  | prev, c :: cs =>
    (if wordCount prev.getLast! ≤ overlap then c.tail else c) ++
      dechunkRest overlap c cs

/-- Concatenate chunk paragraph lists, dropping carried-forward
duplicates from every chunk after the first. -/
def dechunk (overlap : Nat) : List (List String) → List String
  | [] => []
  | c :: cs => c ++ dechunkRest overlap c cs

theorem wsum_concat (l : List String) (x : String) :
    wsum (l ++ [x]) = wsum l + wordCount x := by
  simp [wsum]

theorem wsum_nil : wsum [] = 0 := rfl

/-- One step of `chunk_text`'s loop is simulated by the paragraph-level
step: joined chunks and the running word count are recovered by
`mkChunk` and `wsum`. -/
theorem chunkStep_sim (cs ov : Nat) (done : List (List String))
    (cur : List String) (p : String) :
    chunkStep cs ov (done.map mkChunk, cur, wsum cur) p =
      ((chunkFoldP cs ov (done, cur) [p]).1.map mkChunk,
       (chunkFoldP cs ov (done, cur) [p]).2,
       wsum (chunkFoldP cs ov (done, cur) [p]).2) := by
  simp only [chunkFoldP, List.foldl_cons, List.foldl_nil]
  by_cases h : wsum cur + wordCount p > cs ∧ cur ≠ []
  · by_cases h2 : cur ≠ [] ∧ wordCount cur.getLast! ≤ ov
    · simp only [chunkStep, chunkStepP, if_pos h, if_pos h2]
      simp [mkChunk, wsum]
    · simp only [chunkStep, chunkStepP, if_pos h, if_neg h2]
      simp [mkChunk, wsum]
  · simp only [chunkStep, chunkStepP, if_neg h]
    simp [mkChunk, wsum]

/-- The full loop of `chunk_text` is simulated by the paragraph-level
fold. -/
theorem chunkFold_sim (cs ov : Nat) (ps : List String)
    (done : List (List String)) (cur : List String) :
    ps.foldl (chunkStep cs ov) (done.map mkChunk, cur, wsum cur) =
      ((chunkFoldP cs ov (done, cur) ps).1.map mkChunk,
       (chunkFoldP cs ov (done, cur) ps).2,
       wsum (chunkFoldP cs ov (done, cur) ps).2) := by
  induction ps generalizing done cur with
  | nil => simp [chunkFoldP]
  | cons p ps ih =>
    have hstep := chunkStep_sim cs ov done cur p
    simp only [chunkFoldP, List.foldl_cons, List.foldl_nil] at hstep ⊢
    rw [hstep]
    have := ih (chunkStepP cs ov (done, cur) p).1 (chunkStepP cs ov (done, cur) p).2
    simpa [chunkFoldP] using this

/-- `chunk_text` is `chunkParas` followed by joining each chunk's
paragraphs; in particular every recorded `word_count` is the sum of the
chunk's paragraphs' word counts. -/
theorem chunk_text_eq_mkChunk (text : String) (cs ov : Nat) :
    chunk_text text cs ov =
      (chunkParas cs ov (splitParagraphs text)).map mkChunk := by
  have h := chunkFold_sim cs ov (splitParagraphs text) [] []
  simp only [List.map_nil, wsum_nil] at h
  simp only [chunk_text, chunkParas, h]
  by_cases hc : (chunkFoldP cs ov ([], []) (splitParagraphs text)).2 ≠ []
  · simp [hc, mkChunk]
  · simp [hc]

/-- Unfolding one step of the paragraph-level fold. -/
theorem chunkFoldP_cons (cs ov : Nat) (st : List (List String) × List String)
    (p : String) (ps : List String) :
    chunkFoldP cs ov st (p :: ps) =
      chunkFoldP cs ov (chunkStepP cs ov st p) ps := rfl

/-- The closing branch of the paragraph-level step. -/
theorem chunkStepP_close (cs ov : Nat) (done : List (List String))
    (cur : List String) (p : String)
    (h : wsum cur + wordCount p > cs ∧ cur ≠ []) :
    chunkStepP cs ov (done, cur) p =
      (done ++ [cur],
       (if cur ≠ [] ∧ wordCount cur.getLast! ≤ ov then [cur.getLast!] else [])
         ++ [p]) := by
  simp only [chunkStepP, if_pos h]

/-- The non-closing branch of the paragraph-level step. -/
theorem chunkStepP_noclose (cs ov : Nat) (done : List (List String))
    (cur : List String) (p : String)
    (h : ¬(wsum cur + wordCount p > cs ∧ cur ≠ [])) :
    chunkStepP cs ov (done, cur) p = (done, cur ++ [p]) := by
  simp only [chunkStepP, if_neg h]

/-- Completed chunks only accumulate: the fold from an arbitrary `done`
list equals the fold from the empty list with `done` prepended. -/
theorem chunkFoldP_frame (cs ov : Nat) (ps : List String)
    (done : List (List String)) (cur : List String) :
    chunkFoldP cs ov (done, cur) ps =
      (done ++ (chunkFoldP cs ov ([], cur) ps).1,
       (chunkFoldP cs ov ([], cur) ps).2) := by
  induction ps generalizing done cur with
  | nil => simp [chunkFoldP]
  | cons p ps ih =>
    by_cases h : wsum cur + wordCount p > cs ∧ cur ≠ []
    · rw [chunkFoldP_cons, chunkStepP_close cs ov done cur p h,
          chunkFoldP_cons cs ov ([], cur), chunkStepP_close cs ov [] cur p h,
          List.nil_append,
          ih (done ++ [cur]), ih [cur]]
      simp
    · rw [chunkFoldP_cons, chunkStepP_noclose cs ov done cur p h,
          chunkFoldP_cons cs ov ([], cur), chunkStepP_noclose cs ov [] cur p h]
      exact ih done (cur ++ [p])

/-- The running buffer stays non-empty once non-empty (each step ends
by appending the paragraph). -/
theorem chunkFoldP_snd_ne_nil (cs ov : Nat) (ps : List String)
    (done : List (List String)) (cur : List String) (h : cur ≠ []) :
    (chunkFoldP cs ov (done, cur) ps).2 ≠ [] := by
  induction ps generalizing done cur with
  | nil => simpa [chunkFoldP]
  | cons p ps ih =>
    rw [chunkFoldP_cons]
    by_cases hc : wsum cur + wordCount p > cs ∧ cur ≠ []
    · rw [chunkStepP_close cs ov done cur p hc]
      exact ih _ _ (by simp)
    · rw [chunkStepP_noclose cs ov done cur p hc]
      exact ih _ _ (by simp)

/-- All chunks produced starting from buffer `cur`, including the final
flush. -/
def allChunks (cs ov : Nat) (cur : List String) (ps : List String) :
    List (List String) :=
  (chunkFoldP cs ov ([], cur) ps).1 ++ [(chunkFoldP cs ov ([], cur) ps).2]

/-- When the first paragraph closes the chunk, `cur` is emitted and the
run restarts from the reseeded buffer. -/
theorem allChunks_close (cs ov : Nat) (cur : List String) (p : String)
    (ps : List String) (h : wsum cur + wordCount p > cs ∧ cur ≠ []) :
    allChunks cs ov cur (p :: ps) =
      cur :: allChunks cs ov
        ((if cur ≠ [] ∧ wordCount cur.getLast! ≤ ov then [cur.getLast!] else [])
          ++ [p]) ps := by
  simp only [allChunks, chunkFoldP_cons, chunkStepP_close cs ov [] cur p h,
    List.nil_append]
  rw [chunkFoldP_frame]
  simp

/-- When the first paragraph does not close the chunk, it simply joins
the buffer. -/
theorem allChunks_noclose (cs ov : Nat) (cur : List String) (p : String)
    (ps : List String) (h : ¬(wsum cur + wordCount p > cs ∧ cur ≠ [])) :
    allChunks cs ov cur (p :: ps) = allChunks cs ov (cur ++ [p]) ps := by
  simp only [allChunks, chunkFoldP_cons, chunkStepP_noclose cs ov [] cur p h]

/-- The first chunk produced from buffer `cur` extends `cur`: paragraphs
are only ever appended to the buffer until it is closed. -/
theorem allChunks_head (cs ov : Nat) (ps : List String) (cur : List String) :
    ∃ extra, (allChunks cs ov cur ps).head? = some (cur ++ extra) := by
  induction ps generalizing cur with
  | nil => exact ⟨[], by simp [allChunks, chunkFoldP]⟩
  | cons p ps ih =>
    by_cases h : wsum cur + wordCount p > cs ∧ cur ≠ []
    · exact ⟨[], by rw [allChunks_close cs ov cur p ps h]; simp⟩
    · obtain ⟨extra, hextra⟩ := ih (cur ++ [p])
      refine ⟨[p] ++ extra, ?_⟩
      rw [allChunks_noclose cs ov cur p ps h, hextra, List.append_assoc]

/-- Reconstruction: dechunking all chunks produced from non-empty
buffer `cur` followed by paragraphs `ps` yields `cur ++ ps`. -/
theorem dechunk_allChunks (cs ov : Nat) (ps : List String)
    (cur : List String) (hcur : cur ≠ []) :
    dechunk ov (allChunks cs ov cur ps) = cur ++ ps := by
  induction ps generalizing cur with
  | nil => simp [allChunks, chunkFoldP, dechunk, dechunkRest]
  | cons p ps ih =>
    by_cases h : wsum cur + wordCount p > cs ∧ cur ≠ []
    · -- the chunk closes: `cur` is emitted, the buffer is reseeded
      rw [allChunks_close cs ov cur p ps h]
      set cur1 := (if cur ≠ [] ∧ wordCount cur.getLast! ≤ ov
        then [cur.getLast!] else []) ++ [p] with hcur1
      have hcur1ne : cur1 ≠ [] := by simp [hcur1]
      obtain ⟨extra, hhead⟩ := allChunks_head cs ov ps cur1
      have hne : allChunks cs ov cur1 ps ≠ [] := by
        intro hnil
        rw [hnil] at hhead
        simp at hhead
      obtain ⟨hd, tl, hht⟩ := List.exists_cons_of_ne_nil hne
      have hhd : hd = cur1 ++ extra := by
        rw [hht] at hhead
        simpa using hhead
      have hih := ih cur1 hcur1ne
      rw [hht] at hih
      simp only [dechunk] at hih
      have hexr : extra ++ dechunkRest ov hd tl = ps := by
        have h1 : cur1 ++ (extra ++ dechunkRest ov hd tl) = cur1 ++ ps := by
          rw [← List.append_assoc, ← hhd]
          exact hih
        exact List.append_cancel_left h1
      rw [hht]
      simp only [dechunk, dechunkRest]
      by_cases hcarry : wordCount cur.getLast! ≤ ov
      · -- carried: the seed duplicates `cur`'s last paragraph
        have hseed1 : cur1 = [cur.getLast!, p] := by
          simp [hcur1, hcarry, h.2]
        have htail : hd.tail = [p] ++ extra := by
          rw [hhd, hseed1]
          simp
        rw [if_pos hcarry, htail, List.append_assoc, hexr]
        simp
      · -- not carried: the next chunk is kept whole
        have hseed1 : cur1 = [p] := by
          simp [hcur1, hcarry]
        rw [if_neg hcarry, hih, hseed1]
        simp
    · -- no close: the paragraph joins the buffer
      rw [allChunks_noclose cs ov cur p ps h, ih (cur ++ [p]) (by simp)]
      simp

/-- Reconstruction at the level of `chunkParas`: dechunking the chunk
list returns the original paragraph sequence. -/
theorem dechunk_chunkParas (cs ov : Nat) (ps : List String) :
    dechunk ov (chunkParas cs ov ps) = ps := by
  cases ps with
  | nil => simp [chunkParas, chunkFoldP, dechunk]
  | cons p ps =>
    have h0 : ¬(wsum ([] : List String) + wordCount p > cs ∧
        ([] : List String) ≠ []) := by simp
    have hstep : chunkFoldP cs ov ([], []) (p :: ps) =
        chunkFoldP cs ov ([], [p]) ps := by
      rw [chunkFoldP_cons, chunkStepP_noclose cs ov [] [] p h0]
      simp
    have hne : (chunkFoldP cs ov ([], [p]) ps).2 ≠ [] :=
      chunkFoldP_snd_ne_nil cs ov ps [] [p] (by simp)
    have hparas : chunkParas cs ov (p :: ps) = allChunks cs ov [p] ps := by
      simp only [chunkParas, hstep, allChunks, if_pos hne]
    rw [hparas, dechunk_allChunks cs ov ps [p] (by simp)]
    simp

theorem mem_of_mem_splitLastNL {w t : List Char} (h : splitLastNL w = some t)
    {c : Char} (hc : c ∈ t) : c ∈ w := by
  induction w with
  | nil => simp [splitLastNL] at h
  | cons a w ih =>
    simp only [splitLastNL] at h
    cases hw : splitLastNL w with
    | some t2 =>
      rw [hw] at h
      simp only [Option.some.injEq] at h
      subst h
      exact List.mem_cons_of_mem a (ih hw)
    | none =>
      rw [hw] at h
      by_cases ha : a = '\n'
      · rw [if_pos ha] at h
        simp only [Option.some.injEq] at h
        subst h
        exact List.mem_cons_of_mem a hc
      · rw [if_neg ha] at h
        exact absurd h (by simp)

theorem mem_of_mem_tryMatch {rest r2 : List Char} (h : tryMatch rest = some r2)
    {c : Char} (hc : c ∈ r2) : c ∈ rest := by
  unfold tryMatch at h
  cases hw : splitLastNL (rest.takeWhile isWS) with
  | none => rw [hw] at h; exact absurd h (by simp)
  | some t =>
    rw [hw] at h
    simp only [Option.some.injEq] at h
    subst h
    rcases List.mem_append.mp hc with h1 | h2
    · exact (List.takeWhile_sublist isWS).subset (mem_of_mem_splitLastNL hw h1)
    · exact (List.dropWhile_sublist isWS).subset h2

/-- The split result is never the empty list of pieces. -/
theorem reSplitF_ne_nil (fuel : Nat) (cs : List Char) :
    reSplitF fuel cs ≠ [] := by
  cases fuel with
  | zero => simp [reSplitF]
  | succ f =>
    cases cs with
    | nil => simp [reSplitF]
    | cons c rest =>
      simp only [reSplitF]
      by_cases hc : c = '\n'
      · rw [if_pos hc]
        cases h : tryMatch rest with
        | some rest2 => simp
        | none => cases reSplitF f rest <;> simp [consHead]
      · rw [if_neg hc]
        cases reSplitF f rest <;> simp [consHead]

/-- A split with a single piece returns the input unchanged: no
blank-line separator was found. -/
theorem reSplitF_single (fuel : Nat) (cs : List Char)
    (hf : cs.length < fuel) (h : (reSplitF fuel cs).length = 1) :
    reSplitF fuel cs = [cs] := by
  induction fuel generalizing cs with
  | zero => exact absurd hf (by simp)
  | succ f ih =>
    cases cs with
    | nil => simp [reSplitF]
    | cons c rest =>
      have hrest : rest.length < f := by
        simpa [Nat.succ_lt_succ_iff] using hf
      simp only [reSplitF]
      by_cases hc : c = '\n'
      · rw [if_pos hc]
        cases hm : tryMatch rest with
        | some rest2 =>
          exfalso
          simp only [reSplitF, if_pos hc, hm] at h
          have := reSplitF_ne_nil f rest2
          simp only [List.length_cons, Nat.add_left_eq_self,
            List.length_eq_zero] at h
          exact this h
        | none =>
          have hlen : (reSplitF f rest).length = 1 := by
            simp only [reSplitF, if_pos hc, hm] at h
            cases hr : reSplitF f rest with
            | nil => exact absurd hr (reSplitF_ne_nil f rest)
            | cons q qs =>
              rw [hr] at h
              simpa [consHead] using h
          rw [ih rest hrest hlen]
          simp [consHead, hc]
      · rw [if_neg hc]
        have hlen : (reSplitF f rest).length = 1 := by
          simp only [reSplitF, if_neg hc] at h
          cases hr : reSplitF f rest with
          | nil => exact absurd hr (reSplitF_ne_nil f rest)
          | cons q qs =>
            rw [hr] at h
            simpa [consHead] using h
        rw [ih rest hrest hlen]
        simp [consHead]

theorem splitLastNL_length {w t : List Char} (h : splitLastNL w = some t) :
    t.length < w.length := by
  induction w generalizing t with
  | nil => simp [splitLastNL] at h
  | cons a w ihw =>
    simp only [splitLastNL] at h
    cases hw2 : splitLastNL w with
    | some t2 =>
      rw [hw2] at h
      simp only [Option.some.injEq] at h
      subst h
      exact Nat.lt_succ_of_lt (ihw hw2)
    | none =>
      rw [hw2] at h
      by_cases ha : a = '\n'
      · rw [if_pos ha] at h
        simp only [Option.some.injEq] at h
        subst h
        simp
      · rw [if_neg ha] at h
        exact absurd h (by simp)

theorem tryMatch_length {rest r2 : List Char} (h : tryMatch rest = some r2) :
    r2.length < rest.length := by
  unfold tryMatch at h
  cases hw : splitLastNL (rest.takeWhile isWS) with
  | none => rw [hw] at h; exact absurd h (by simp)
  | some t =>
    rw [hw] at h
    simp only [Option.some.injEq] at h
    subst h
    have ht := splitLastNL_length hw
    have hlen : (rest.takeWhile isWS).length + (rest.dropWhile isWS).length
        = rest.length := by
      rw [← List.length_append, List.takeWhile_append_dropWhile]
    rw [List.length_append]
    omega

theorem mem_consHead {c : Char} {L : List (List Char)} {p : List Char}
    (h : p ∈ consHead c L) :
    (∃ p0 L2, L = p0 :: L2 ∧ p = c :: p0) ∨ (L = [] ∧ p = [c]) ∨ p ∈ L.tail := by
  cases L with
  | nil =>
    simp only [consHead, List.mem_singleton] at h
    exact Or.inr (Or.inl ⟨rfl, h⟩)
  | cons p0 L2 =>
    simp only [consHead, List.mem_cons] at h
    rcases h with h | h
    · exact Or.inl ⟨p0, L2, rfl, h⟩
    · exact Or.inr (Or.inr (by simpa using h))

/-- Every character of every piece of the split comes from the input:
pieces of an all-whitespace input are all-whitespace. -/
theorem reSplitF_allWS (fuel : Nat) (cs : List Char) (hf : cs.length < fuel)
    (hws : ∀ c ∈ cs, isWS c = true) :
    ∀ p ∈ reSplitF fuel cs, ∀ c ∈ p, isWS c = true := by
  induction fuel generalizing cs with
  | zero => exact absurd hf (by simp)
  | succ f ih =>
    cases cs with
    | nil =>
      intro p hp
      simp only [reSplitF, List.mem_singleton] at hp
      subst hp
      simp
    | cons a rest =>
      have hrest : rest.length < f := by
        simpa [Nat.succ_lt_succ_iff] using hf
      have hwsr : ∀ x ∈ rest, isWS x = true :=
        fun x hx => hws x (List.mem_cons_of_mem a hx)
      intro p hp
      simp only [reSplitF] at hp
      by_cases hc : a = '\n'
      · rw [if_pos hc] at hp
        cases hm : tryMatch rest with
        | some rest2 =>
          rw [hm] at hp
          have hlen2 : rest2.length < f :=
            Nat.lt_of_lt_of_le (tryMatch_length hm) (Nat.le_of_lt hrest)
          rcases List.mem_cons.mp hp with hp1 | hp2
          · subst hp1; simp
          · exact ih rest2 hlen2
              (fun x hx => hwsr x (mem_of_mem_tryMatch hm hx)) p hp2
        | none =>
          rw [hm] at hp
          rcases mem_consHead hp with ⟨p0, L2, hL, hpc⟩ | ⟨_, hpc⟩ | hptl
          · subst hpc
            intro x hx
            rcases List.mem_cons.mp hx with hx1 | hx2
            · subst hx1; exact hws x (by simp)
            · exact ih rest hrest hwsr p0 (by rw [hL]; simp) x hx2
          · subst hpc
            intro x hx
            rw [List.mem_singleton.mp hx]
            exact hws a (by simp)
          · exact ih rest hrest hwsr p (List.mem_of_mem_tail hptl)
      · rw [if_neg hc] at hp
        rcases mem_consHead hp with ⟨p0, L2, hL, hpc⟩ | ⟨_, hpc⟩ | hptl
        · subst hpc
          intro x hx
          rcases List.mem_cons.mp hx with hx1 | hx2
          · subst hx1; exact hws x (by simp)
          · exact ih rest hrest hwsr p0 (by rw [hL]; simp) x hx2
        · subst hpc
          intro x hx
          rw [List.mem_singleton.mp hx]
          exact hws a (by simp)
        · exact ih rest hrest hwsr p (List.mem_of_mem_tail hptl)

/-- Stripping an all-whitespace character list yields the empty list. -/
theorem stripChars_eq_nil (cs : List Char) (h : ∀ c ∈ cs, isWS c = true) :
    stripChars cs = [] := by
  unfold stripChars
  have h1 : cs.dropWhile isWS = [] := by
    rw [List.dropWhile_eq_nil_iff]
    exact h
  rw [h1]
  simp

/-- Conversely, a list that strips to nothing is all whitespace. -/
theorem allWS_of_stripChars_eq_nil (cs : List Char)
    (h : stripChars cs = []) : ∀ c ∈ cs, isWS c = true := by
  unfold stripChars at h
  rw [List.reverse_eq_nil_iff, List.dropWhile_eq_nil_iff] at h
  have h2 : ∀ c ∈ cs.dropWhile isWS, isWS c = true := by
    intro c hc
    exact h c (by simpa using hc)
  intro c hc
  rw [← List.takeWhile_append_dropWhile (p := isWS) (l := cs)] at hc
  rcases List.mem_append.mp hc with h3 | h3
  · exact List.mem_takeWhile_imp h3
  · exact h2 c h3

/-- An all-whitespace text has no paragraphs. -/
theorem splitParagraphs_allWS (text : String)
    (h : ∀ c ∈ text.data, isWS c = true) : splitParagraphs text = [] := by
  unfold splitParagraphs
  rw [List.filter_eq_nil_iff]
  intro s hs
  rcases List.mem_map.mp hs with ⟨p, hp, hps⟩
  have hws := reSplitF_allWS (text.data.length + 1) text.data (by omega) h p hp
  have hnil : stripChars p = [] := stripChars_eq_nil p hws
  rw [← hps, hnil]
  simp

theorem intercalate_singleton (a : String) :
    String.intercalate "\n\n" [a] = a := by
  simp [String.intercalate, String.intercalate.go]

theorem string_mk_eq_empty {s : List Char} (h : String.mk s = "") : s = [] := by
  have := congrArg String.data h
  simpa using this

/-- C1: whenever `chunk_text`'s loop closes a chunk (the buffer is
non-empty and adding the next paragraph would exceed `chunk_size`), the
new buffer is seeded with exactly the closed chunk's last paragraph iff
that paragraph's word count is at most `overlap`, and otherwise starts
empty — so at most one paragraph is carried forward — after which the
triggering paragraph is appended. -/
theorem c1_overlap_reset_policy (cs ov : Nat) (chunks : List Chunk)
    (current : List String) (cw : Nat) (para : String)
    (hne : current ≠ []) (hover : cw + wordCount para > cs) :
    chunkStep cs ov (chunks, current, cw) para =
      (chunks ++ [⟨String.intercalate "\n\n" current, cw⟩],
       (if wordCount current.getLast! ≤ ov then [current.getLast!] else [])
         ++ [para],
       (if wordCount current.getLast! ≤ ov then wordCount current.getLast!
        else 0) + wordCount para) := by
  by_cases h2 : wordCount current.getLast! ≤ ov
  · simp [chunkStep, hover, hne, h2]
  · simp [chunkStep, hover, hne, h2]

theorem c1_overlap_reset_policy_witness :
    chunkStep 6 3 ([], ["a b c"], 3) "d e f g" =
      ([⟨"a b c", 3⟩], ["a b c", "d e f g"], 7) := by
  have h := c1_overlap_reset_policy 6 3 [] ["a b c"] 3 "d e f g"
    (by decide) (by decide)
  rw [h]
  decide

/-- C4 counterexample: on the spec's example text with `chunk_size = 6`
and `overlap = 3`, the first chunk is NOT the claimed two-paragraph
chunk of 8 words — 4 + 4 = 8 already exceeds 6, so the chunk closes
after the first paragraph. -/
theorem c4_counterexample :
    (chunk_text "Para one word word.\n\nPara two word word.\n\nPara three." 6 3).head? ≠
      some ⟨"Para one word word.\n\nPara two word word.", 8⟩ := by decide

/-- C4 amended: on the spec's example text with `chunk_size = 6` and
`overlap = 3`, `chunk_text` produces first chunk "Para one word word."
with word count 4 (the second paragraph would push 4 + 4 = 8 over the
budget), and second chunk "Para two word word.\n\nPara three." with
word count 6 (the first paragraph, 4 words, exceeds the overlap budget
3 and is not carried). -/
theorem c4_amended_example :
    chunk_text "Para one word word.\n\nPara two word word.\n\nPara three." 6 3 =
      [⟨"Para one word word.", 4⟩,
       ⟨"Para two word word.\n\nPara three.", 6⟩] := by decide

/-- C9: with `chunk_size = 6` and `overlap = 3`, a text whose
paragraphs all have word count at most 6 still yields a chunk of more
than 6 words: the carried-forward paragraph plus the paragraph that
triggered the closure enter the new buffer without a size re-check. -/
theorem c9_carry_overflows_budget :
    (∀ p ∈ splitParagraphs "w w w\n\nx x x\n\ny y y y y y", wordCount p ≤ 6) ∧
    ∃ c ∈ chunk_text "w w w\n\nx x x\n\ny y y y y y" 6 3,
      6 < c.word_count := by decide

/-- C5 counterexample: the input " a" has a non-whitespace character
and no blank-line separator, yet its single chunk's content is the
stripped text "a", not the whole input " a". -/
theorem c5_counterexample :
    ¬((chunk_text " a" 400 50).map Chunk.content = [" a"]) := by decide

/-- C5 amended: for text containing a non-whitespace character and no
blank-line paragraph separator (the regex split returns a single
piece), `chunk_text` with any chunk size and overlap produces exactly
one chunk, whose content is the whole input text stripped of leading
and trailing whitespace (equal to the whole text whenever the text has
no surrounding whitespace). -/
theorem c5_single_paragraph (text : String) (cs ov : Nat) (c0 : Char)
    (hc0 : c0 ∈ text.data) (hc0w : isWS c0 = false)
    (hnosep : (reSplit text.data).length = 1) :
    chunk_text text cs ov =
      [⟨String.mk (stripChars text.data),
        wordCount (String.mk (stripChars text.data))⟩] := by
  have hsingle : reSplit text.data = [text.data] :=
    reSplitF_single (text.data.length + 1) text.data (by omega) hnosep
  have hstrip_ne : stripChars text.data ≠ [] := by
    intro h
    have hall := allWS_of_stripChars_eq_nil _ h c0 hc0
    rw [hc0w] at hall
    exact Bool.false_ne_true hall
  have hsp : splitParagraphs text = [String.mk (stripChars text.data)] := by
    unfold splitParagraphs
    rw [hsingle]
    have hbne : (String.mk (stripChars text.data) != "") = true := by
      rw [bne_iff_ne]
      intro h
      exact hstrip_ne (string_mk_eq_empty h)
    simp [hbne]
  rw [chunk_text_eq_mkChunk, hsp]
  have h1 : chunkParas cs ov [String.mk (stripChars text.data)] =
      [[String.mk (stripChars text.data)]] := by
    simp only [chunkParas, chunkFoldP, List.foldl_cons, List.foldl_nil]
    rw [show (chunkStepP cs ov ([], []) (String.mk (stripChars text.data))) =
      ([], [] ++ [String.mk (stripChars text.data)]) from
      chunkStepP_noclose cs ov [] [] _ (by simp)]
    simp [chunkFoldP]
  rw [h1]
  simp [mkChunk, intercalate_singleton, wsum]

theorem c5_single_paragraph_witness :
    chunk_text "Hello world\nsecond line" 400 50 =
      [⟨"Hello world\nsecond line", 4⟩] := by
  have h := c5_single_paragraph "Hello world\nsecond line" 400 50 'H'
    (by decide) (by decide) (by decide)
  rw [h]
  decide

theorem getLast!_append_single (l : List String) (a : String) :
    (l ++ [a]).getLast! = a :=
  List.getLast!_of_getLast? (by simp)

theorem exists_concat_of_ne_nil {l : List String} (h : l ≠ []) :
    ∃ init lastc, l = init ++ [lastc] ∧ l.getLast! = lastc := by
  rcases List.eq_nil_or_concat l with h2 | ⟨L, b, h2⟩
  · exact absurd h2 h
  · refine ⟨L, b, by simpa using h2, ?_⟩
    rw [show l = L ++ [b] by simpa using h2]
    exact getLast!_append_single L b

/-- Flushed output of the paragraph-level fold: completed chunks plus
the final buffer when non-empty. -/
def flushed (st : List (List String) × List String) : List (List String) :=
  st.1 ++ (if st.2 ≠ [] then [st.2] else [])

/-- Loop invariant: every chunk the fold can ever emit is a non-empty
consecutive run of the full paragraph list (chunk boundaries never
split or reorder paragraphs). -/
theorem chunkFoldP_infix (cs ov : Nat) (ps : List String)
    (total pre cur : List String) (done : List (List String))
    (htot : total = pre ++ ps) (hcur : cur <:+ pre)
    (hdone : ∀ ch ∈ done, ch ≠ [] ∧ ch <:+: total) :
    ∀ ch ∈ flushed (chunkFoldP cs ov (done, cur) ps),
      ch ≠ [] ∧ ch <:+: total := by
  induction ps generalizing pre cur done with
  | nil =>
    intro ch hch
    simp only [flushed, chunkFoldP, List.foldl_nil] at hch
    rcases List.mem_append.mp hch with h1 | h2
    · exact hdone ch h1
    · by_cases hc : cur ≠ []
      · rw [if_pos hc] at h2
        rw [List.mem_singleton.mp h2]
        obtain ⟨t, ht⟩ := hcur
        refine ⟨hc, t, [], ?_⟩
        simp only [htot, List.append_nil, ← ht]
      · rw [if_neg hc] at h2
        exact absurd h2 (by simp)
  | cons r ps ih =>
    rw [chunkFoldP_cons]
    by_cases h : wsum cur + wordCount r > cs ∧ cur ≠ []
    · rw [chunkStepP_close cs ov done cur r h]
      have htot2 : total = (pre ++ [r]) ++ ps := by
        rw [htot]; simp
      have hcur_infix : cur ≠ [] ∧ cur <:+: total := by
        refine ⟨h.2, ?_⟩
        obtain ⟨t, ht⟩ := hcur
        exact ⟨t, r :: ps, by rw [htot, ← ht]⟩
      have hdone2 : ∀ ch ∈ done ++ [cur], ch ≠ [] ∧ ch <:+: total := by
        intro ch hch
        rcases List.mem_append.mp hch with h1 | h2
        · exact hdone ch h1
        · rw [List.mem_singleton.mp h2]
          exact hcur_infix
      have hcur2 :
          (if cur ≠ [] ∧ wordCount cur.getLast! ≤ ov then [cur.getLast!] else [])
            ++ [r] <:+ pre ++ [r] := by
        by_cases hcarry : cur ≠ [] ∧ wordCount cur.getLast! ≤ ov
        · rw [if_pos hcarry]
          obtain ⟨init, lastc, hinit, hlast⟩ := exists_concat_of_ne_nil h.2
          obtain ⟨t, ht⟩ := hcur
          refine ⟨t ++ init, ?_⟩
          rw [hlast, ← ht, hinit]
          simp
        · rw [if_neg hcarry]
          exact ⟨pre, rfl⟩
      exact ih (pre ++ [r]) _ (done ++ [cur]) htot2 hcur2 hdone2
    · rw [chunkStepP_noclose cs ov done cur r h]
      have htot2 : total = (pre ++ [r]) ++ ps := by
        rw [htot]; simp
      have hcur2 : cur ++ [r] <:+ pre ++ [r] := by
        obtain ⟨t, ht⟩ := hcur
        exact ⟨t, by rw [← List.append_assoc, ht]⟩
      exact ih (pre ++ [r]) (cur ++ [r]) done htot2 hcur2 hdone

theorem chunkParas_eq_flushed (cs ov : Nat) (ps : List String) :
    chunkParas cs ov ps = flushed (chunkFoldP cs ov ([], []) ps) := by
  simp only [chunkParas, flushed]
  by_cases hc : (chunkFoldP cs ov ([], []) ps).2 ≠ [] <;> simp [hc]

/-- Every chunk of `chunkParas` is a non-empty consecutive run of the
input paragraphs. -/
theorem chunkParas_infix (cs ov : Nat) (ps : List String) :
    ∀ ch ∈ chunkParas cs ov ps, ch ≠ [] ∧ ch <:+: ps := by
  have h := chunkFoldP_infix cs ov ps ps [] [] []
    (by simp) ⟨[], rfl⟩ (by simp)
  intro ch hch
  rw [chunkParas_eq_flushed] at hch
  exact h ch hch

/-- The shape a chunk may take around an oversized paragraph `p`: the
paragraph alone, or preceded by exactly one carried-forward paragraph
within the overlap budget. -/
def GoodFor (ov : Nat) (p : String) (ch : List String) : Prop :=
  ch = [p] ∨ ∃ q, wordCount q ≤ ov ∧ ch = [q, p]

/-- Loop invariant for oversized paragraphs: every processed paragraph
whose word count exceeds `chunk_size` either already sits in a
completed chunk of shape `GoodFor`, or is the tail of the current
buffer, which has that same shape. -/
theorem chunkFoldP_oversized (cs ov : Nat) (ps : List String)
    (pre cur : List String) (done : List (List String))
    (hprev : ∀ p ∈ pre, cs < wordCount p →
      (∃ ch ∈ done, GoodFor ov p ch) ∨ GoodFor ov p cur) :
    ∀ p ∈ pre ++ ps, cs < wordCount p →
      ∃ ch ∈ flushed (chunkFoldP cs ov (done, cur) ps), GoodFor ov p ch := by
  induction ps generalizing pre cur done with
  | nil =>
    intro p hp hbig
    rcases hprev p (by simpa using hp) hbig with ⟨ch, hch, hgood⟩ | hgood
    · exact ⟨ch, by simp [flushed, chunkFoldP, List.mem_append, hch], hgood⟩
    · have hcne : cur ≠ [] := by
        rcases hgood with h1 | ⟨q, _, h1⟩ <;> simp [h1]
      exact ⟨cur, by simp [flushed, chunkFoldP, hcne], hgood⟩
  | cons r ps ih =>
    intro p hp hbig
    rw [chunkFoldP_cons]
    by_cases h : wsum cur + wordCount r > cs ∧ cur ≠ []
    · rw [chunkStepP_close cs ov done cur r h]
      refine ih (pre ++ [r]) _ (done ++ [cur]) ?_ p (by simpa using hp) hbig
      intro p2 hp2 hbig2
      rcases List.mem_append.mp hp2 with hpre | hr
      · rcases hprev p2 hpre hbig2 with ⟨ch, hch, hgood⟩ | hgood
        · exact Or.inl ⟨ch, by simp [hch], hgood⟩
        · exact Or.inl ⟨cur, by simp, hgood⟩
      · rw [List.mem_singleton.mp hr]
        right
        by_cases hcarry : cur ≠ [] ∧ wordCount cur.getLast! ≤ ov
        · rw [if_pos hcarry]
          exact Or.inr ⟨cur.getLast!, hcarry.2, rfl⟩
        · rw [if_neg hcarry]
          exact Or.inl rfl
    · rw [chunkStepP_noclose cs ov done cur r h]
      refine ih (pre ++ [r]) (cur ++ [r]) done ?_ p (by simpa using hp) hbig
      intro p2 hp2 hbig2
      rcases List.mem_append.mp hp2 with hpre | hr
      · rcases hprev p2 hpre hbig2 with ⟨ch, hch, hgood⟩ | hgood
        · exact Or.inl ⟨ch, hch, hgood⟩
        · -- impossible: a buffer of shape `GoodFor` would have closed
          exfalso
          have hws : cs < wsum cur := by
            rcases hgood with h1 | ⟨q, hq, h1⟩ <;>
              · rw [h1]
                simp only [wsum, List.map_cons, List.map_nil, List.sum_cons,
                  List.sum_nil]
                omega
          have hcne : cur ≠ [] := by
            rcases hgood with h1 | ⟨q, hq, h1⟩ <;> simp [h1]
          exact h ⟨by omega, hcne⟩
      · have hp2r : p2 = r := List.mem_singleton.mp hr
        subst hp2r
        have hcur_nil : cur = [] := by
          rcases Decidable.not_and_iff_or_not.mp h with h1 | h1
          · exfalso
            apply h1
            have hle : wordCount p2 ≤ wsum cur + wordCount p2 :=
              Nat.le_add_left _ _
            omega
          · exact Decidable.not_not.mp h1
        right
        rw [hcur_nil]
        exact Or.inl (by simp)

/-- Every paragraph whose word count exceeds `chunk_size` ends up in a
chunk containing only itself or itself preceded by one carried-forward
paragraph whose word count is within the overlap budget. -/
theorem chunkParas_oversized (cs ov : Nat) (ps : List String) (p : String)
    (hp : p ∈ ps) (hbig : cs < wordCount p) :
    ∃ ch ∈ chunkParas cs ov ps, GoodFor ov p ch := by
  have h := chunkFoldP_oversized cs ov ps [] [] [] (by simp) p
    (by simpa using hp) hbig
  obtain ⟨ch, hch, hgood⟩ := h
  rw [← chunkParas_eq_flushed] at hch
  exact ⟨ch, hch, hgood⟩

/-- C2: for every input text, chunk size and overlap, `chunk_text`'s
chunks are exactly the joined chunk paragraph lists, and removing from
each non-first chunk the leading paragraph carried forward for overlap
and concatenating recovers precisely the non-empty
blank-line-separated paragraphs of the text, in document order;
moreover empty or all-whitespace input yields zero chunks. -/
theorem c2_reconstruction (text : String) (cs ov : Nat) :
    chunk_text text cs ov =
      (chunkParas cs ov (splitParagraphs text)).map mkChunk ∧
    dechunk ov (chunkParas cs ov (splitParagraphs text)) =
      splitParagraphs text ∧
    ((∀ c ∈ text.data, isWS c = true) → chunk_text text cs ov = []) := by
  refine ⟨chunk_text_eq_mkChunk text cs ov, dechunk_chunkParas cs ov _, ?_⟩
  intro h
  rw [chunk_text_eq_mkChunk, splitParagraphs_allWS text h]
  simp [chunkParas, chunkFoldP]

theorem c2_reconstruction_witness :
    dechunk 3 (chunkParas 6 3
      (splitParagraphs "w w w\n\nx x x\n\ny y y y y y")) =
      splitParagraphs "w w w\n\nx x x\n\ny y y y y y" ∧
    chunk_text " \n\t " 400 50 = [] :=
  ⟨(c2_reconstruction "w w w\n\nx x x\n\ny y y y y y" 6 3).2.1,
   (c2_reconstruction " \n\t " 400 50).2.2 (by decide)⟩

/-- C3 counterexample: with `chunk_size = 6`, `overlap = 3`, the
7-word paragraph of this text exceeds the chunk size but does NOT
become its own chunk — the 3-word paragraph before it is carried
forward into its buffer, so its chunk has two paragraphs. -/
theorem c3_counterexample :
    6 < wordCount "Y Y Y Y Y Y Y" ∧
    "Y Y Y Y Y Y Y" ∈ splitParagraphs "x x x\n\nY Y Y Y Y Y Y\n\nz" ∧
    (chunk_text "x x x\n\nY Y Y Y Y Y Y\n\nz" 6 3).all
      (fun c => c.content != "Y Y Y Y Y Y Y") = true := by decide

/-- C3 amended: a paragraph is never split across chunks — every chunk
of `chunk_text` is the blank-line join of a non-empty consecutive run
of the input's paragraphs — and a paragraph whose word count exceeds
`chunk_size` lands in a chunk holding either it alone or it preceded by
exactly one carried-forward paragraph whose word count is within the
overlap budget (its own chunk exactly when nothing was carried). -/
theorem c3_never_split (text : String) (cs ov : Nat) (ch : List String)
    (hch : ch ∈ chunkParas cs ov (splitParagraphs text)) (p : String)
    (hp : p ∈ splitParagraphs text) (hbig : cs < wordCount p) :
    chunk_text text cs ov =
      (chunkParas cs ov (splitParagraphs text)).map mkChunk ∧
    ch ≠ [] ∧ ch <:+: splitParagraphs text ∧
    ∃ ch2 ∈ chunkParas cs ov (splitParagraphs text), GoodFor ov p ch2 := by
  obtain ⟨hne, hinf⟩ := chunkParas_infix cs ov (splitParagraphs text) ch hch
  exact ⟨chunk_text_eq_mkChunk text cs ov, hne, hinf,
    chunkParas_oversized cs ov (splitParagraphs text) p hp hbig⟩

theorem c3_never_split_witness :
    chunk_text "a a a a" 3 1 =
      (chunkParas 3 1 (splitParagraphs "a a a a")).map mkChunk ∧
    (["a a a a"] : List String) ≠ [] ∧
    (["a a a a"] : List String) <:+: splitParagraphs "a a a a" ∧
    ∃ ch2 ∈ chunkParas 3 1 (splitParagraphs "a a a a"),
      GoodFor 1 "a a a a" ch2 :=
  c3_never_split "a a a a" 3 1 ["a a a a"] (by decide) "a a a a"
    (by decide) (by decide)

/-- The run-dependent inputs of one ingestion of one file: the file's
bytes, its path strings, and the wall-clock timestamp taken at
ingestion time (ingest.py lines 389–407). -/
structure IngestRun where
  fileBytes : List Nat
  filePathAbs : String
  filename : String
  nowIso : String

/-- UTF-8 bytes of a string (exact for the ASCII hash-digit strings
being encoded at line 394). -/
def encodeStr (s : String) : List Nat :=
  s.data.map Char.toNat

/-- ingest.py line 390:
`file_hash = hashlib.md5(file_path.read_bytes()).hexdigest()[:12]`.
The MD5 hex digest is modelled as an uninterpreted pure function
parameter `md5hex` (hashlib.md5 is deterministic). -/
def fileHash (md5hex : List Nat → String) (bytes : List Nat) : String :=
  (md5hex bytes).take 12

/-- ingest.py line 394:
`point_id = hashlib.md5(f"{file_hash}_{i}".encode()).hexdigest()`. -/
def pointId (md5hex : List Nat → String) (bytes : List Nat) (i : Nat) :
    String :=
  md5hex (encodeStr (fileHash md5hex bytes ++ "_" ++ toString i))

/-- One upsert point: identifier and payload (the embedding vector is
produced by the external model and carries no logic). -/
structure PointRec where
  id : String
  document : String
  metadata : List (String × Option String)

/-- ingest.py lines 392–417: the point built for chunk `i`.  Metadata
values are modelled as `Option String` (`none` = Python `None`,
numbers via their decimal rendering); the extractor metadata entries
with non-`None` values are appended (Python's `**` merge lets them
override on key collision, which an association list models by
last-entry-wins reading order noted here). -/
def buildPoint (md5hex : List Nat → String) (run : IngestRun)
    (fileMeta : List (String × Option String)) (total : Nat)
    (i : Nat) (chunk : Chunk) : PointRec :=
  { id := pointId md5hex run.fileBytes i,
    document := chunk.content,
    metadata :=
      [("source", some "local_file"),
       ("content_type", (fileMeta.lookup "format").getD (some "text")),
       ("file_path", some run.filePathAbs),
       ("filename", some run.filename),
       ("harvested_at", some run.nowIso),
       ("chunk_index", some (toString i)),
       ("total_chunks", some (toString total)),
       ("word_count", some (toString chunk.word_count))] ++
      fileMeta.filter (fun kv => kv.2 ≠ none) }

/-- ingest.py lines 392–417: the points of one run, one per chunk in
enumeration order. -/
def buildPoints (md5hex : List Nat → String) (run : IngestRun)
    (fileMeta : List (String × Option String)) (chunks : List Chunk) :
    List PointRec :=
  chunks.enum.map (fun ic => buildPoint md5hex run fileMeta chunks.length ic.1 ic.2)

theorem buildPoints_ids_from (md5hex : List Nat → String) (run : IngestRun)
    (fileMeta : List (String × Option String)) (l : List Chunk)
    (k n : Nat) :
    ((l.enumFrom k).map
        (fun ic => buildPoint md5hex run fileMeta n ic.1 ic.2)).map
        PointRec.id =
      (List.range' k l.length).map (pointId md5hex run.fileBytes) := by
  induction l generalizing k with
  | nil => rfl
  | cons c l ih =>
    simp only [List.enumFrom, List.length_cons, List.range', List.map_cons]
    rw [ih]
    rfl

theorem buildPoints_ids (md5hex : List Nat → String) (run : IngestRun)
    (fileMeta : List (String × Option String)) (chunks : List Chunk) :
    (buildPoints md5hex run fileMeta chunks).map PointRec.id =
      (List.range chunks.length).map (pointId md5hex run.fileBytes) := by
  rw [List.range_eq_range']
  exact buildPoints_ids_from md5hex run fileMeta chunks 0 chunks.length

/-- C6: the point identifier of chunk `i` is a pure function of the
file's bytes and `i` alone — two runs over identical bytes, regardless
of path, timestamp or extractor metadata, produce identical identifier
sequences. -/
theorem c6_point_id_deterministic (md5hex : List Nat → String)
    (run1 run2 : IngestRun) (meta1 meta2 : List (String × Option String))
    (chunks1 chunks2 : List Chunk)
    (hb : run1.fileBytes = run2.fileBytes) :
    ((buildPoints md5hex run1 meta1 chunks1).map PointRec.id =
      (List.range chunks1.length).map (pointId md5hex run1.fileBytes)) ∧
    ((buildPoints md5hex run2 meta2 chunks2).map PointRec.id =
      (List.range chunks2.length).map (pointId md5hex run1.fileBytes)) ∧
    (chunks1.length = chunks2.length →
      (buildPoints md5hex run1 meta1 chunks1).map PointRec.id =
        (buildPoints md5hex run2 meta2 chunks2).map PointRec.id) := by
  refine ⟨buildPoints_ids md5hex run1 meta1 chunks1, ?_, ?_⟩
  · rw [buildPoints_ids, hb]
  · intro hlen
    rw [buildPoints_ids, buildPoints_ids, hb, hlen]

theorem c6_point_id_deterministic_witness :
    (buildPoints (fun bs => toString bs.length)
        ⟨[1, 2, 3], "/a/f.txt", "f.txt", "2024-01-01T00:00:00"⟩
        [] [⟨"x", 1⟩]).map PointRec.id =
    (buildPoints (fun bs => toString bs.length)
        ⟨[1, 2, 3], "/b/copy.txt", "copy.txt", "2025-06-30T12:00:00"⟩
        [("format", some "pdf")] [⟨"y y", 2⟩]).map PointRec.id :=
  (c6_point_id_deterministic (fun bs => toString bs.length)
    ⟨[1, 2, 3], "/a/f.txt", "f.txt", "2024-01-01T00:00:00"⟩
    ⟨[1, 2, 3], "/b/copy.txt", "copy.txt", "2025-06-30T12:00:00"⟩
    [] [("format", some "pdf")] [⟨"x", 1⟩] [⟨"y y", 2⟩] rfl).2.2 rfl

namespace LF

/-- JSON values, the possible results of `json.loads`. -/
inductive Json where
  | null
  | bool (b : Bool)
  | num (n : Int)
  | str (s : String)
  | arr (elems : List Json)
  | obj (fields : List (String × Json))

/-- Python truthiness (`bool(v)`) of a JSON value. -/
def truthy : Json → Bool
  | .null => false
  | .bool b => b
  | .num n => n != 0
  | .str s => s != ""
  | .arr elems => !elems.isEmpty
  | .obj fields => !fields.isEmpty

/-- `dict.get(k)`: `none` when the key is absent (JSON objects carry
unique keys, so first match suffices). -/
def jget (fields : List (String × Json)) (k : String) : Option Json :=
  (fields.find? (fun kv => kv.1 == k)).map (fun kv => kv.2)

/-- The dict returned by `parse_tool_data`
(langfuse-trace.py lines 45–53). -/
structure ToolEvent where
  tool_name : Json
  tool_input : Json
  tool_response : Json
  session_id : Option Json
  tool_use_id : Option Json
  success : Bool
  error : Option Json

/-- langfuse-trace.py `parse_tool_data` (lines 37–53).  Calling `.get`
on a non-dict raises `AttributeError`, modelled by `Except.error`. -/
def parse_tool_data : Json → Except String ToolEvent
  | .obj fields =>
    match (jget fields "tool_response").getD (.obj []) with
    | .obj tr =>
      let error : Option Json :=
        match jget tr "stderr" with
        | some v => if truthy v then some v else none
        | none => none
      .ok { tool_name := (jget fields "tool_name").getD (.str "unknown"),
            tool_input := (jget fields "tool_input").getD (.obj []),
            tool_response := .obj tr,
            session_id := jget fields "session_id",
            tool_use_id := jget fields "tool_use_id",
            success := !(match error with
              | some v => truthy v
              | none => false),
            error := error }
    | _ => .error "AttributeError"
  | _ => .error "AttributeError"

/-- The environment read by the forwarder: configuration variables
(`none` = unset) and the timestamp used for generated session ids. -/
structure TraceEnv where
  host : Option String
  public_key : Option String
  secret_key : Option String
  session_env : Option String
  now : String

/-- Python truthiness of an optional environment string (`not pk` is
true for both an unset and an empty variable). -/
def envTruthy : Option String → Bool
  | none => false
  | some s => s != ""

/-- langfuse-trace.py `get_session_id` (lines 28–34). -/
def get_session_id (env : TraceEnv) : String :=
  env.session_env.getD ("claude-code-" ++ env.now)

/-- `str(v)` for the values interpolated into the span; container
renderings are abstracted (no claim depends on them). -/
def pyStr : Json → String
  | .null => "None"
  | .bool b => if b then "True" else "False"
  | .num n => toString n
  | .str s => s
  | .arr _ => "[...]"
  | .obj _ => "[dict]"

/-- The argument record of `langfuse.start_span`
(langfuse-trace.py lines 78–92). -/
structure SpanData where
  name : String
  input : Json
  output : Json
  level : String
  status_message : Option String
  metadata : List (String × Json)

/-- langfuse-trace.py `send_trace` (lines 56–100).  The LangFuse client
calls (constructor, `start_span`, `end`, `flush`) are modelled as one
function parameter `sdk` that may fail; the surrounding
`try/except Exception: pass` swallows any failure.  The returned pair
is (printed output lines, outcome). -/
def send_trace (env : TraceEnv) (sdk : SpanData → Except String Unit)
    (tool_data : Json) : List String × Except String Unit :=
  if !envTruthy env.public_key || !envTruthy env.secret_key then
    ([], .ok ())
  else
    match (do
      let parsed ← parse_tool_data tool_data
      let session_id : Json :=
        match parsed.session_id with
        | some v => if truthy v then v else .str (get_session_id env)
        | none => .str (get_session_id env)
      let span : SpanData :=
        { name := "tool:" ++ pyStr parsed.tool_name,
          input := parsed.tool_input,
          output := parsed.tool_response,
          level := if (match parsed.error with
            | some v => truthy v
            | none => false) then "ERROR" else "DEFAULT",
          status_message := match parsed.error with
            | some v => if truthy v then some (pyStr v) else none
            | none => none,
          metadata :=
            [("source", .str "claude-code"),
             ("plugin", .str "reflex"),
             ("tool_name", parsed.tool_name),
             ("tool_use_id", parsed.tool_use_id.getD .null),
             ("session_id", session_id),
             ("success", .bool parsed.success)] }
      sdk span : Except String Unit) with
    | .ok _ => ([], .ok ())
    | .error _ => ([], .ok ())

/-- langfuse-trace.py `main` (lines 103–118): read stdin, strip, skip
when empty, parse JSON (parser modelled as a parameter; `Except.error`
= `json.JSONDecodeError`), forward, and swallow every exception. -/
def main (stdin : String) (parseJson : String → Except String Json)
    (env : TraceEnv) (sdk : SpanData → Except String Unit) :
    List String × Except String Unit :=
  let raw := String.mk (stripChars stdin.data)
  if raw = "" then ([], .ok ())
  else
    match parseJson raw with
    | .error _ => ([], .ok ())
    | .ok tool_data =>
      match send_trace env sdk tool_data with
      | (out, .ok _) => (out, .ok ())
      | (out, .error _) => (out, .ok ())

end LF

theorem send_trace_silent (env : LF.TraceEnv)
    (sdk : LF.SpanData → Except String Unit) (td : LF.Json) :
    LF.send_trace env sdk td = ([], Except.ok ()) := by
  unfold LF.send_trace
  split
  · rfl
  · split <;> rfl

/-- C7: for every standard-input content (empty, whitespace-only,
malformed JSON, or valid JSON of any shape), every environment and
every behaviour of the tracing client, the forwarder's `main` produces
no output and completes successfully — parse failures are skipped
silently and all forwarding failures are swallowed. -/
theorem c7_forwarder_never_fails (stdin : String)
    (parseJson : String → Except String LF.Json) (env : LF.TraceEnv)
    (sdk : LF.SpanData → Except String Unit) :
    LF.main stdin parseJson env sdk = ([], Except.ok ()) := by
  unfold LF.main
  dsimp only
  split
  · rfl
  · split
    · rfl
    · rw [send_trace_silent]

/-- C10: the parsed event's `success` flag is true exactly when the
record's `tool_response` has no "stderr" field or that field's value is
falsy, in which case `error` is empty; otherwise `error` carries the
stderr value.  No field of the record other than `tool_response`
influences `success` or `error`: two records agreeing on
`tool_response` parse to the same `success` and `error`. -/
theorem c10_success_iff_stderr_falsy
    (fields1 fields2 : List (String × LF.Json))
    (tr1 : List (String × LF.Json)) (ev1 ev2 : LF.ToolEvent)
    (hr1 : (LF.jget fields1 "tool_response").getD (.obj []) = .obj tr1)
    (hok1 : LF.parse_tool_data (.obj fields1) = .ok ev1)
    (hok2 : LF.parse_tool_data (.obj fields2) = .ok ev2)
    (heq : LF.jget fields1 "tool_response" = LF.jget fields2 "tool_response") :
    (ev1.success = match LF.jget tr1 "stderr" with
      | some v => !LF.truthy v
      | none => true) ∧
    (ev1.error = match LF.jget tr1 "stderr" with
      | some v => if LF.truthy v then some v else none
      | none => none) ∧
    ev1.success = ev2.success ∧ ev1.error = ev2.error := by
  simp only [LF.parse_tool_data] at hok1 hok2
  rw [hr1] at hok1
  rw [← heq, hr1] at hok2
  simp only [Except.ok.injEq] at hok1 hok2
  subst hok1
  subst hok2
  cases hst : LF.jget tr1 "stderr" with
  | none => simp [hst]
  | some v =>
    by_cases ht : LF.truthy v = true
    · simp [hst, ht]
    · simp [hst, Bool.not_eq_true _ ▸ ht]

theorem c10_success_iff_stderr_falsy_witness :
    ({ tool_name := .str "Bash", tool_input := .obj [],
       tool_response := .obj [("stderr", .str "boom")], session_id := none,
       tool_use_id := none, success := false,
       error := some (.str "boom") } : LF.ToolEvent).success =
    ({ tool_name := .str "unknown", tool_input := .obj [],
       tool_response := .obj [("stderr", .str "boom")], session_id := none,
       tool_use_id := none, success := false,
       error := some (.str "boom") } : LF.ToolEvent).success :=
  (c10_success_iff_stderr_falsy
    [("tool_name", .str "Bash"),
     ("tool_response", .obj [("stderr", .str "boom")])]
    [("tool_response", .obj [("stderr", .str "boom")]), ("other", .num 5)]
    [("stderr", .str "boom")] _ _ rfl rfl rfl rfl).2.2.1

/-- One entry of the `results` list of ingest.py's `main`
(lines 447, 462–467, 541–545): Python dicts with a `status` key;
absent keys are modelled by `none` / `0`. -/
structure FileResult where
  file : String
  status : String
  chunks : Nat
  error : Option String
  format : Option String
deriving Repr, DecidableEq

/-- ingest.py `process_file` (lines 433–467).  Extraction and the
Qdrant/embedding ingestion are external calls modelled as function
parameters; `Except.error` models a raised exception, which propagates
to the caller.  `chunk_text` is called with the configured chunk size
and the default overlap of 50, exactly as at line 450. -/
def process_file (path : String) (chunk_size : Nat)
    (extract : String → Except String (String × List (String × Option String)))
    (ingest : List Chunk → String → Except String Nat) :
    Except String FileResult :=
  match extract path with
  | .error e => .error e
  | .ok (text, metadata) =>
    if String.mk (stripChars text.data) = "" then
      .ok { file := path, status := "empty", chunks := 0, error := none,
            format := none }
    else
      match ingest (chunk_text text chunk_size) path with
      | .error e => .error e
      | .ok ingested =>
        .ok { file := path, status := "success", chunks := ingested,
              error := none,
              format := (metadata.lookup "format").getD (some "unknown") }

/-- The per-file outcome as recorded by the driver loop: a raised
exception is caught and becomes a result with status "error"
(ingest.py lines 539–545). -/
def fileOutcome (chunk_size : Nat)
    (extract : String → Except String (String × List (String × Option String)))
    (ingest : List Chunk → String → Except String Nat) (path : String) :
    FileResult :=
  match process_file path chunk_size extract ingest with
  | .ok r => r
  | .error e =>
    { file := path, status := "error", chunks := 0, error := some e,
      format := none }

/-- The driver loop of ingest.py `main` (lines 529–545): process the
files one at a time, appending one result per file. -/
def main_loop (files : List String) (chunk_size : Nat)
    (extract : String → Except String (String × List (String × Option String)))
    (ingest : List Chunk → String → Except String Nat) : List FileResult :=
  match files with
  | [] => []
  | p :: rest =>
    fileOutcome chunk_size extract ingest p ::
      main_loop rest chunk_size extract ingest

theorem main_loop_eq_map (files : List String) (cs : Nat)
    (extract : String → Except String (String × List (String × Option String)))
    (ingest : List Chunk → String → Except String Nat) :
    main_loop files cs extract ingest =
      files.map (fileOutcome cs extract ingest) := by
  induction files with
  | nil => rfl
  | cons p rest ih => simp [main_loop, ih]

theorem process_file_empty (p : String) (cs : Nat)
    (extract : String → Except String (String × List (String × Option String)))
    (ingest : List Chunk → String → Except String Nat)
    (text : String) (md : List (String × Option String))
    (hext : extract p = .ok (text, md))
    (hblank : String.mk (stripChars text.data) = "") :
    process_file p cs extract ingest =
      .ok { file := p, status := "empty", chunks := 0, error := none,
            format := none } := by
  unfold process_file
  rw [hext]
  dsimp only
  rw [if_pos hblank]

theorem fileOutcome_status (cs : Nat)
    (extract : String → Except String (String × List (String × Option String)))
    (ingest : List Chunk → String → Except String Nat) (p : String) :
    (fileOutcome cs extract ingest p).status = "success" ∨
    (fileOutcome cs extract ingest p).status = "empty" ∨
    (fileOutcome cs extract ingest p).status = "error" := by
  unfold fileOutcome process_file
  cases hext : extract p with
  | error e => simp
  | ok tm =>
    by_cases hblank : String.mk (stripChars tm.1.data) = ""
    · simp [hblank]
    · cases hing : ingest (chunk_text tm.1 cs) p with
      | error e => simp [hblank, hing]
      | ok n => simp [hblank, hing]

/-- C8: in every batch run the driver records exactly one result per
file, each with status "success", "empty" or "error"; a file whose
extracted text is blank after trimming is recorded as "empty" with zero
chunks and an outcome independent of the ingestion call (no ingestion
is attempted); and a file whose processing raises is caught and
recorded as "error" with the message, while every other file is still
processed. -/
theorem c8_per_file_isolation (files : List String) (cs : Nat)
    (extract : String → Except String (String × List (String × Option String)))
    (ingest ingest2 : List Chunk → String → Except String Nat)
    (i j : Nat) (pi pj : String) (text : String)
    (md : List (String × Option String)) (msg : String)
    (hfi : files[i]? = some pi) (hfj : files[j]? = some pj)
    (hext : extract pi = .ok (text, md))
    (hblank : String.mk (stripChars text.data) = "")
    (herr : process_file pj cs extract ingest = .error msg) :
    (main_loop files cs extract ingest).length = files.length ∧
    (main_loop files cs extract ingest).all
      (fun r => r.status == "success" || r.status == "empty" ||
        r.status == "error") = true ∧
    (main_loop files cs extract ingest)[i]? =
      some { file := pi, status := "empty", chunks := 0, error := none,
             format := none } ∧
    (main_loop files cs extract ingest2)[i]? =
      some { file := pi, status := "empty", chunks := 0, error := none,
             format := none } ∧
    (main_loop files cs extract ingest)[j]? =
      some { file := pj, status := "error", chunks := 0, error := some msg,
             format := none } := by
  have hout_i : ∀ ing, fileOutcome cs extract ing pi =
      { file := pi, status := "empty", chunks := 0, error := none,
        format := none } := by
    intro ing
    unfold fileOutcome
    rw [process_file_empty pi cs extract ing text md hext hblank]
  have hout_j : fileOutcome cs extract ingest pj =
      { file := pj, status := "error", chunks := 0, error := some msg,
        format := none } := by
    unfold fileOutcome
    rw [herr]
  refine ⟨?_, ?_, ?_, ?_, ?_⟩
  · rw [main_loop_eq_map]; simp
  · rw [main_loop_eq_map, List.all_eq_true]
    intro r hr
    obtain ⟨p, hp, hrp⟩ := List.mem_map.mp hr
    rcases fileOutcome_status cs extract ingest p with h | h | h <;>
      simp [← hrp, h]
  · rw [main_loop_eq_map, List.getElem?_map, hfi]
    simp [hout_i ingest]
  · rw [main_loop_eq_map, List.getElem?_map, hfi]
    simp [hout_i ingest2]
  · rw [main_loop_eq_map, List.getElem?_map, hfj]
    simp [hout_j]

theorem c8_per_file_isolation_witness :
    (main_loop ["a.txt", "b.txt", "c.txt"] 400
      (fun p => if p = "a.txt" then .ok ("  ", [])
        else if p = "b.txt" then .error "boom" else .ok ("hello", []))
      (fun _ _ => .ok 1)).length = 3 ∧
    (main_loop ["a.txt", "b.txt", "c.txt"] 400
      (fun p => if p = "a.txt" then .ok ("  ", [])
        else if p = "b.txt" then .error "boom" else .ok ("hello", []))
      (fun _ _ => .ok 1))[0]? =
      some { file := "a.txt", status := "empty", chunks := 0, error := none,
             format := none } ∧
    (main_loop ["a.txt", "b.txt", "c.txt"] 400
      (fun p => if p = "a.txt" then .ok ("  ", [])
        else if p = "b.txt" then .error "boom" else .ok ("hello", []))
      (fun _ _ => .ok 1))[1]? =
      some { file := "b.txt", status := "error", chunks := 0,
             error := some "boom", format := none } := by
  have h := c8_per_file_isolation ["a.txt", "b.txt", "c.txt"] 400
    (fun p => if p = "a.txt" then .ok ("  ", [])
      else if p = "b.txt" then .error "boom" else .ok ("hello", []))
    (fun _ _ => .ok 1) (fun _ _ => .ok 2) 0 1 "a.txt" "b.txt" "  " [] "boom"
    rfl rfl rfl (by decide) rfl
  exact ⟨h.1, h.2.2.1, h.2.2.2.2⟩
